import Mathlib

/-!
Verification of the marker-expression enrichment engine and its surrounding
template-generation utilities (brain_data_standards_ontologies).

The enrichment engine itself (`marker_tools.extend_expressions`, exercised by
`src/test/denormalised_marker_generation_test.py`) is not among the available
source files, so its model below follows the specification text (spec.md
sections 4.1 to 4.3).  The utilities `generate_dendrogram_tree`, `get_subtrees`
and `read_markers` are translated directly from
`src/scripts/template_generation_utils.py`.
-/

/-- Node identifiers are opaque unique strings in the repository (cell-set
accessions); they are modelled as naturals. -/
abbrev NodeId := ℕ

/-- Marker identifiers are opaque namespaced strings; modelled as naturals. -/
abbrev MarkerId := ℕ

/-- Modelled from the spec: section 4.1 TaxonomyTree, the rooted hierarchy
queried through parent pointers (the implementation file `marker_tools.py`
that holds the enrichment engine is not among the sources; only its test is).
`nodes` lists the tree nodes and `parent` is the parent pointer map. -/
structure TaxonomyTree where
  nodes : List NodeId
  parent : NodeId → Option NodeId

/-- Walks parent pointers for at most `fuel` steps collecting the ancestors,
nearest first. -/
def ancChain (p : NodeId → Option NodeId) : ℕ → NodeId → List NodeId
  | 0, _ => []
  | fuel + 1, n =>
    match p n with
    | none => []
    | some q => q :: ancChain p fuel q

/-- True when the walk from `n` toward the root reaches a parentless node
within `fuel` steps (the bounded visited-walk cycle check of spec 4.1). -/
def reachesRoot (p : NodeId → Option NodeId) : ℕ → NodeId → Bool
  | 0, n => (p n).isNone
  | fuel + 1, n =>
    match p n with
    | none => true
    | some q => reachesRoot p fuel q

/-- Structural validity of a taxonomy tree: parents of nodes are nodes, and
every node reaches the true root within `nodes.length` steps (no cycles). -/
def treeValidB (t : TaxonomyTree) : Bool :=
  t.nodes.all fun n =>
    ((t.parent n).all fun q => t.nodes.contains q) &&
      reachesRoot t.parent t.nodes.length n

/-- Propositional form of tree validity. -/
def TValid (t : TaxonomyTree) : Prop := treeValidB t = true

/-- Modelled from the spec: section 4.1 `ancestorsOf` — the ordered sequence
of strict ancestors from the node's parent up to the true root, nearest
first. -/
def ancestorsOf (t : TaxonomyTree) (n : NodeId) : List NodeId :=
  ancChain t.parent t.nodes.length n

/-- A sparse self-marker table: node id paired with its declared marker set.
Presence of the key is meaningful (spec section 3, SelfMarkers). -/
abbrev SelfMarkers := List (NodeId × Finset MarkerId)

/-- Modelled from the spec: section 4.3 — union of the marker sets of the
listed nodes that have a self-marker entry; nodes without an entry are
skipped. -/
def collectMarkers (sm : NodeId → Option (Finset MarkerId)) : List NodeId → Finset MarkerId
  | [] => ∅
  | a :: rest =>
    match sm a with
    | some s => s ∪ collectMarkers sm rest
    | none => collectMarkers sm rest

/-- Modelled from the spec: section 4.2 case 5 — the scoped ancestor chain of
`n`, the strict ancestors of `n` truncated at the first scope root met while
ascending. -/
def scopedChain (t : TaxonomyTree) (scopeRoots : List NodeId) (n : NodeId) : List NodeId :=
  (ancestorsOf t n).takeWhile fun a => decide (a ∉ scopeRoots)

/-- Modelled from the spec: section 4.2 case 2 — `n` is enclosed by a scope
root when some strict ancestor of `n` is a scope root. -/
def isEnclosed (t : TaxonomyTree) (scopeRoots : List NodeId) (n : NodeId) : Prop :=
  ∃ a ∈ ancestorsOf t n, a ∈ scopeRoots

instance (t : TaxonomyTree) (scopeRoots : List NodeId) (n : NodeId) :
    Decidable (isEnclosed t scopeRoots n) := by
  unfold isEnclosed; infer_instance

/-- Modelled from the spec: sections 4.2 and 4.3 — the enriched marker set of
a single node `n` whose declared set is `s`: with no scope roots the full
ancestor chain is folded in; a scope root is suppressed to the empty set; an
enclosed node folds in its scoped ancestor chain; an unscoped node keeps only
its own set. -/
def enrichNode (t : TaxonomyTree) (sm : NodeId → Option (Finset MarkerId))
    (scopeRoots : List NodeId) (n : NodeId) (s : Finset MarkerId) : Finset MarkerId :=
  if scopeRoots = [] then s ∪ collectMarkers sm (ancestorsOf t n)
  else if n ∈ scopeRoots then ∅
  else if isEnclosed t scopeRoots n then s ∪ collectMarkers sm (scopedChain t scopeRoots n)
  else s

/-- Modelled from the spec: section 4.3 ExpressionEnrichment — the enrichment
pass of `marker_tools.extend_expressions` (not among the sources; only its
test is): every entry of the self-marker table is mapped to its enriched
marker set, keys untouched. -/
def extend_expressions (t : TaxonomyTree) (self : SelfMarkers)
    (scopeRoots : List NodeId) : SelfMarkers :=
  self.map fun e => (e.1, enrichNode t (fun a => List.lookup a self) scopeRoots e.1 e.2)

/-!
Directed graphs as built by networkx in `template_generation_utils.py`.
-/

/-- A networkx-style directed graph: insertion-ordered node and edge lists. -/
structure DiGraph where
  nodes : List ℕ
  edges : List (ℕ × ℕ)

/-- `nx.DiGraph` node insertion: adds the node if it is not already present. -/
def addNode (g : DiGraph) (u : ℕ) : DiGraph :=
  if g.nodes.contains u then g else ⟨g.nodes ++ [u], g.edges⟩

/-- `nx.DiGraph.add_edge u v`: inserts both endpoints and the directed edge,
each only if not already present. -/
def add_edge (g : DiGraph) (u v : ℕ) : DiGraph :=
  let g1 := addNode (addNode g u) v
  if g1.edges.contains (u, v) then g1 else ⟨g1.nodes, g1.edges ++ [(u, v)]⟩

/-- `template_generation_utils.generate_dendrogram_tree`: builds a directed
graph from the dendrogram edge list, inserting each data edge reversed
(`tree.add_edge(edge[1], edge[0])`). -/
def generate_dendrogram_tree (dendrogram_edges : List (ℕ × ℕ)) : DiGraph :=
  dendrogram_edges.foldl (fun tree e => add_edge tree e.2 e.1) ⟨[], []⟩

/-- Direct successors of a node: targets of the edges leaving it. -/
def successors (g : DiGraph) (n : ℕ) : List ℕ :=
  (g.edges.filter fun e => e.1 == n).map Prod.snd

/-- Saturating reachability closure of a visited list, `fuel` bounding the
number of expansion rounds. -/
def reachClosure (g : DiGraph) : ℕ → List ℕ → List ℕ
  | 0, visited => visited
  | fuel + 1, visited =>
    let fresh := (((visited.map (successors g)).flatten).filter fun m => !visited.contains m).dedup
    if fresh.isEmpty then visited else reachClosure g fuel (visited ++ fresh)

/-- `nx.descendants(G, n)`: all nodes reachable from `n` excluding `n`
itself; raises an error when `n` is not a node of the graph. -/
def nx_descendants (g : DiGraph) (n : ℕ) : Except String (List ℕ) :=
  if g.nodes.contains n then
    Except.ok ((reachClosure g g.nodes.length [n]).filter fun m => m != n)
  else Except.error "node not in digraph"

/-- `template_generation_utils.get_subtrees`: for each configured root node,
the list of its descendants — or the root alone when it has none.  The
exception raised by `nx.descendants` on a root absent from the tree aborts
the whole computation, discarding the subtrees already collected. -/
def get_subtrees (dend_tree : DiGraph) : List ℕ → Except String (List (List ℕ))
  | [] => Except.ok []
  | r :: rest =>
    match nx_descendants dend_tree r with
    | Except.error e => Except.error e
    | Except.ok ds =>
      match get_subtrees dend_tree rest with
      | Except.error e => Except.error e
      | Except.ok others => Except.ok ((if ds.isEmpty then [r] else ds) :: others)

/-!
The marker-file reader `template_generation_utils.read_markers`, modelled at
the character level (node ids as naturals, strings as `List Char`, so that
every operation is kernel-computable).
-/

/-- Python `"…".split("|")` on the character list: splits at every pipe,
keeping empty remainders; the empty string yields one empty piece. -/
def splitPipe : List Char → List (List Char)
  | [] => [[]]
  | c :: rest =>
    if c = '|' then [] :: splitPipe rest
    else
      match splitPipe rest with
      | [] => [[c]]
      | h :: tl => (c :: h) :: tl

/-- Python `str.strip()`: removes leading and trailing whitespace. -/
def trimChars (l : List Char) : List Char :=
  ((l.dropWhile Char.isWhitespace).reverse.dropWhile Char.isWhitespace).reverse

/-- Lexicographic comparison of names, as Python string comparison. -/
def leChars : List Char → List Char → Bool
  | [], _ => true
  | _ :: _, [] => false
  | a :: as, b :: bs => if a = b then leChars as bs else decide (a < b)

/-- One insertion step of insertion sort with `leChars`. -/
def insertSortedName (x : List Char) : List (List Char) → List (List Char)
  | [] => [x]
  | y :: t => if leChars x y then x :: y :: t else y :: insertSortedName x t

/-- Python `sorted` on a list of names (stable, lexicographic). -/
def sortNames (l : List (List Char)) : List (List Char) :=
  l.foldr insertSortedName []

/-- Python dict assignment `d[k] = v` on an insertion-ordered association
list: overwrites in place when the key exists, appends otherwise. -/
def dictInsert (m : List (ℕ × List Char)) (k : ℕ) (v : List Char) : List (ℕ × List Char) :=
  if m.any fun e => e.1 == k then m.map fun e => if e.1 == k then (k, v) else e
  else m ++ [(k, v)]

/-- `template_generation_utils.read_markers`: each data row carries a node id
(`row[0]`) and a raw marker string (`row[2]`).  A row with a non-empty marker
string is split on the pipe, each piece trimmed; pieces found among the gene
names are kept, sorted and joined by pipes as the row's value, while each
miss produces one printed warning line (second component: the missed names,
one per printed line).  A row with an empty marker string is skipped
entirely.  This is the loop body for one data row; `read_markers` folds it
over all data rows. -/
def readMarkersStep (gene_names : List (List Char))
    (acc : List (ℕ × List Char) × List (List Char)) (row : ℕ × List Char) :
    List (ℕ × List Char) × List (List Char) :=
  if row.2 ≠ [] then
    let pieces := (splitPipe row.2).map trimChars
    let names := pieces.filter fun mn => gene_names.contains mn
    let misses := pieces.filter fun mn => !gene_names.contains mn
    (dictInsert acc.1 row.1 (List.intercalate ['|'] (sortNames names)), acc.2 ++ misses)
  else acc

/-- `template_generation_utils.read_markers`: folds the row processing step
over all data rows, starting from an empty marker dict and no printed
lines. -/
def read_markers (rows : List (ℕ × List Char)) (gene_names : List (List Char)) :
    List (ℕ × List Char) × List (List Char) :=
  rows.foldl (readMarkersStep gene_names) ([], [])

/-- Follows the spec's words, for comparison with `generate_dendrogram_tree`:
the edge set forms a single connected rooted tree — exactly one node with no
parent, every other node exactly one parent, and no cycles (every node
reaches the root within a step count bounded by the node count). -/
def specValidRootedTree (edges : List (ℕ × ℕ)) : Bool :=
  let nodeList := (edges.map Prod.fst ++ edges.map Prod.snd).dedup
  let parentsOf := fun c => ((edges.filter fun e => e.2 == c).map Prod.fst).dedup
  let roots := nodeList.filter fun n => (parentsOf n).isEmpty
  roots.length == 1 &&
    (nodeList.all fun n => (parentsOf n).isEmpty || (parentsOf n).length == 1) &&
    (nodeList.all fun n => reachesRoot (fun c => (parentsOf c).head?) nodeList.length n)

/-!
Concrete fixtures used by the witness theorems.
-/

/-- A five-node taxonomy: root `3`, its child `2`, whose children are `1`
and `4`; `5` is a child of `4`. -/
def treeW : TaxonomyTree :=
  ⟨[1, 2, 3, 4, 5], fun n =>
    if n = 1 then some 2
    else if n = 2 then some 3
    else if n = 4 then some 2
    else if n = 5 then some 4
    else none⟩

/-- Self markers for the fixture: nodes `1`, `2` and `3` declare sets. -/
def selfW : SelfMarkers := [(1, {10, 11, 12}), (2, {13, 14}), (3, {15, 16})]

/-- A four-node dendrogram graph: root `1`, child `2`, grandchildren `3`
and `4` (dendrogram edges are `(child, parent)` pairs). -/
def graphW : DiGraph := generate_dendrogram_tree [(2, 1), (3, 2), (4, 2)]

/-!
Theorems.  First the list and chain infrastructure, then the claims.
-/

/-- Claim C1: enrichment never adds or removes a key: the key sequence of the
enriched table is exactly the key sequence of the input self-marker table,
for every tree, marker table and scope-root list. -/
theorem claim_C1 (t : TaxonomyTree) (self : SelfMarkers) (scopeRoots : List NodeId) :
    (extend_expressions t self scopeRoots).map Prod.fst = self.map Prod.fst := by
  unfold extend_expressions
  rw [List.map_map]
  rfl

theorem mem_of_mem_tw {p : NodeId → Bool} {l : List NodeId} {x : NodeId}
    (h : x ∈ l.takeWhile p) : x ∈ l := by
  rw [← List.takeWhile_append_dropWhile p l]
  exact List.mem_append.mpr (Or.inl h)

theorem takeWhile_append_all {p : NodeId → Bool} :
    ∀ l1 l2 : List NodeId, (∀ x ∈ l1, p x = true) →
      (l1 ++ l2).takeWhile p = l1 ++ l2.takeWhile p := by
  intro l1
  induction l1 with
  | nil => intro l2 _; simp
  | cons a t ih =>
    intro l2 h
    have ha : p a = true := h a (by simp)
    rw [List.cons_append, List.takeWhile_cons_of_pos ha, ih l2 fun x hx => h x (by simp [hx])]
    rfl

theorem takeWhile_suffix_decomp {p : NodeId → Bool} :
    ∀ (l1 A tail : List NodeId) (a : NodeId),
      A = l1 ++ a :: tail → a ∉ l1 → a ∈ A.takeWhile p →
      A.takeWhile p = l1 ++ a :: tail.takeWhile p := by
  intro l1
  induction l1 with
  | nil =>
    intro A tail a hA ha hmem
    subst hA
    cases hpa : p a with
    | false =>
      rw [List.nil_append, List.takeWhile_cons_of_neg (by simp [hpa])] at hmem
      simp at hmem
    | true => simp [List.takeWhile_cons_of_pos hpa]
  | cons b t ih =>
    intro A tail a hA ha hmem
    subst hA
    cases hpb : p b with
    | false =>
      rw [List.cons_append, List.takeWhile_cons_of_neg (by simp [hpb])] at hmem
      simp at hmem
    | true =>
      rw [List.cons_append, List.takeWhile_cons_of_pos hpb] at hmem
      have hab : a ≠ b := fun hEq => ha (by simp [hEq])
      have hmem2 : a ∈ (t ++ a :: tail).takeWhile p := by
        rcases List.mem_cons.mp hmem with hEq | hm
        · exact absurd hEq hab
        · exact hm
      rw [List.cons_append, List.takeWhile_cons_of_pos hpb,
        ih (t ++ a :: tail) tail a rfl (fun hEq => ha (by simp [hEq])) hmem2]
      rfl

theorem mem_collectMarkers (sm : NodeId → Option (Finset MarkerId)) :
    ∀ (l : List NodeId) (m : MarkerId),
      m ∈ collectMarkers sm l ↔ ∃ a ∈ l, ∃ sa, sm a = some sa ∧ m ∈ sa := by
  intro l
  induction l with
  | nil => intro m; simp [collectMarkers]
  | cons a t ih =>
    intro m
    cases h : sm a with
    | none =>
      simp only [collectMarkers, h, ih, List.mem_cons]
      constructor
      · rintro ⟨x, hx, sx, hsx, hm⟩
        exact ⟨x, Or.inr hx, sx, hsx, hm⟩
      · rintro ⟨x, hx | hx, sx, hsx, hm⟩
        · rw [hx, h] at hsx; cases hsx
        · exact ⟨x, hx, sx, hsx, hm⟩
    | some s =>
      simp only [collectMarkers, h, Finset.mem_union, ih, List.mem_cons]
      constructor
      · rintro (hm | ⟨x, hx, sx, hsx, hm⟩)
        · exact ⟨a, Or.inl rfl, s, h, hm⟩
        · exact ⟨x, Or.inr hx, sx, hsx, hm⟩
      · rintro ⟨x, hx | hx, sx, hsx, hm⟩
        · rw [hx, h] at hsx
          cases hsx
          exact Or.inl hm
        · exact Or.inr ⟨x, hx, sx, hsx, hm⟩

theorem collect_mono {sm : NodeId → Option (Finset MarkerId)} {l1 l2 : List NodeId}
    (h : ∀ x ∈ l1, x ∈ l2) : collectMarkers sm l1 ⊆ collectMarkers sm l2 := by
  intro m hm
  rw [mem_collectMarkers] at hm ⊢
  obtain ⟨a, ha, sa, hsa, hmem⟩ := hm
  exact ⟨a, h a ha, sa, hsa, hmem⟩

theorem subset_collect_of_mem {sm : NodeId → Option (Finset MarkerId)} {l : List NodeId}
    {a : NodeId} {sa : Finset MarkerId} (ha : a ∈ l) (h : sm a = some sa) :
    sa ⊆ collectMarkers sm l := by
  intro m hm
  rw [mem_collectMarkers]
  exact ⟨a, ha, sa, h, hm⟩

theorem lookup_map_keyed {β γ : Type} (a : NodeId) (F : NodeId × β → γ) :
    ∀ l : List (NodeId × β),
      List.lookup a (l.map fun e => (e.1, F e)) =
        Option.map (fun s => F (a, s)) (List.lookup a l) := by
  intro l
  induction l with
  | nil => rfl
  | cons e t ih =>
    obtain ⟨k, u⟩ := e
    by_cases hak : a = k
    · subst hak
      simp [List.lookup]
    · have hb : (a == k) = false := by simpa using hak
      simpa [List.lookup, hb] using ih

theorem lookup_extend (t : TaxonomyTree) (self : SelfMarkers) (scopeRoots : List NodeId)
    (a : NodeId) :
    List.lookup a (extend_expressions t self scopeRoots) =
      Option.map (fun s => enrichNode t (fun b => List.lookup b self) scopeRoots a s)
        (List.lookup a self) :=
  lookup_map_keyed a _ self

theorem map_eq_self_of {α : Type} (l : List α) (f : α → α) (h : ∀ x ∈ l, f x = x) :
    l.map f = l := by
  induction l with
  | nil => rfl
  | cons a t ih =>
    rw [List.map_cons, h a (by simp), ih fun x hx => h x (by simp [hx])]

theorem reachesRoot_of_none {p : NodeId → Option NodeId} {n : NodeId} (h : p n = none) :
    ∀ fuel, reachesRoot p fuel n = true := by
  intro fuel
  cases fuel <;> simp [reachesRoot, h]

theorem ancChain_of_none {p : NodeId → Option NodeId} {n : NodeId} (h : p n = none) :
    ∀ fuel, ancChain p fuel n = [] := by
  intro fuel
  cases fuel <;> simp [ancChain, h]

theorem reachesRoot_mono (p : NodeId → Option NodeId) :
    ∀ (fuel : ℕ) (n : NodeId), reachesRoot p fuel n = true →
      ∀ k, reachesRoot p (fuel + k) n = true := by
  intro fuel
  induction fuel with
  | zero =>
    intro n h k
    have hn : p n = none := Option.isNone_iff_eq_none.mp (by simpa [reachesRoot] using h)
    exact reachesRoot_of_none hn _
  | succ f ih =>
    intro n h k
    cases hp : p n with
    | none => exact reachesRoot_of_none hp _
    | some q =>
      have h2 : reachesRoot p f q = true := by simpa [reachesRoot, hp] using h
      have hstep : f + 1 + k = (f + k) + 1 := by omega
      rw [hstep]
      simpa [reachesRoot, hp] using ih q h2 k

theorem ancChain_mono (p : NodeId → Option NodeId) :
    ∀ (fuel : ℕ) (n : NodeId), reachesRoot p fuel n = true →
      ∀ k, ancChain p (fuel + k) n = ancChain p fuel n := by
  intro fuel
  induction fuel with
  | zero =>
    intro n h k
    have hn : p n = none := Option.isNone_iff_eq_none.mp (by simpa [reachesRoot] using h)
    rw [ancChain_of_none hn, ancChain_of_none hn]
  | succ f ih =>
    intro n h k
    cases hp : p n with
    | none => rw [ancChain_of_none hp, ancChain_of_none hp]
    | some q =>
      have h2 : reachesRoot p f q = true := by simpa [reachesRoot, hp] using h
      have hstep : f + 1 + k = (f + k) + 1 := by omega
      rw [hstep]
      simp only [ancChain, hp]
      rw [ih q h2 k]

theorem TValid.parent_mem {t : TaxonomyTree} (hv : TValid t) {n q : NodeId}
    (hn : n ∈ t.nodes) (hq : t.parent n = some q) : q ∈ t.nodes := by
  unfold TValid treeValidB at hv
  rw [List.all_eq_true] at hv
  have h := hv n hn
  rw [Bool.and_eq_true] at h
  have h1 := h.1
  rw [hq] at h1
  simpa using h1

theorem TValid.reaches {t : TaxonomyTree} (hv : TValid t) {n : NodeId}
    (hn : n ∈ t.nodes) : reachesRoot t.parent t.nodes.length n = true := by
  unfold TValid treeValidB at hv
  rw [List.all_eq_true] at hv
  have h := hv n hn
  rw [Bool.and_eq_true] at h
  exact h.2

theorem ancestorsOf_cons {t : TaxonomyTree} (hv : TValid t) {n q : NodeId}
    (hn : n ∈ t.nodes) (hq : t.parent n = some q) :
    ancestorsOf t n = q :: ancestorsOf t q := by
  have hr := hv.reaches hn
  obtain ⟨m, hm⟩ : ∃ m, t.nodes.length = m + 1 := by
    have hz : t.nodes.length ≠ 0 := by
      intro h0
      rw [List.length_eq_zero] at h0
      rw [h0] at hn
      simp at hn
    exact ⟨t.nodes.length - 1, by omega⟩
  have hr2 : reachesRoot t.parent m q = true := by
    rw [hm] at hr
    simpa [reachesRoot, hq] using hr
  have hmono : ancChain t.parent (m + 1) q = ancChain t.parent m q := by
    simpa using ancChain_mono t.parent m q hr2 1
  unfold ancestorsOf
  rw [hm, hmono]
  simp only [ancChain, hq]

theorem anc_decomp {t : TaxonomyTree} (hv : TValid t) :
    ∀ (k : ℕ) (n : NodeId), (ancestorsOf t n).length ≤ k → n ∈ t.nodes →
      ∀ a ∈ ancestorsOf t n,
        ∃ l1, ancestorsOf t n = l1 ++ a :: ancestorsOf t a ∧ a ∉ l1 ∧ a ∈ t.nodes := by
  intro k
  induction k with
  | zero =>
    intro n hlen hn a ha
    rw [Nat.le_zero, List.length_eq_zero] at hlen
    rw [hlen] at ha
    simp at ha
  | succ k ih =>
    intro n hlen hn a ha
    cases hp : t.parent n with
    | none =>
      rw [ancestorsOf, ancChain_of_none hp] at ha
      simp at ha
    | some q =>
      have hcons := ancestorsOf_cons hv hn hp
      have hq : q ∈ t.nodes := hv.parent_mem hn hp
      rw [hcons] at ha
      by_cases haq : a = q
      · subst haq
        exact ⟨[], by rw [hcons, List.nil_append], by simp, hq⟩
      · have ha2 : a ∈ ancestorsOf t q := by
          rcases List.mem_cons.mp ha with hEq | hm
          · exact absurd hEq haq
          · exact hm
        have hlen2 : (ancestorsOf t q).length ≤ k := by
          rw [hcons] at hlen
          simp only [List.length_cons] at hlen
          omega
        obtain ⟨l1, hEq, hnotin, hmem⟩ := ih q hlen2 hq a ha2
        refine ⟨q :: l1, ?_, ?_, hmem⟩
        · rw [hcons, hEq]
          rfl
        · intro hcontra
          rcases List.mem_cons.mp hcontra with hEq2 | hm2
          · exact haq hEq2
          · exact hnotin hm2

/-- Claim C2: with an empty scope-root list, the enriched set of a node with
a self-marker entry is the union of its own set and the sets of exactly
those true ancestors that have an entry; ancestors without an entry
contribute nothing and duplicates collapse. -/
theorem claim_C2 (t : TaxonomyTree) (self : SelfMarkers) (n : NodeId) (s : Finset MarkerId)
    (h : List.lookup n self = some s) :
    ∃ E, List.lookup n (extend_expressions t self []) = some E ∧
      ∀ m, m ∈ E ↔ m ∈ s ∨ ∃ a ∈ ancestorsOf t n, ∃ sa, List.lookup a self = some sa ∧ m ∈ sa := by
  refine ⟨s ∪ collectMarkers (fun b => List.lookup b self) (ancestorsOf t n), ?_, ?_⟩
  · rw [lookup_extend, h]
    simp [enrichNode]
  · intro m
    simp [Finset.mem_union, mem_collectMarkers]

theorem claim_C2_witness :
    List.lookup 1 selfW = some ({10, 11, 12} : Finset MarkerId) ∧
      ∃ E, List.lookup 1 (extend_expressions treeW selfW []) = some E ∧
        ∀ m, m ∈ E ↔ m ∈ ({10, 11, 12} : Finset MarkerId) ∨
          ∃ a ∈ ancestorsOf treeW 1, ∃ sa, List.lookup a selfW = some sa ∧ m ∈ sa :=
  ⟨by decide, claim_C2 treeW selfW 1 {10, 11, 12} (by decide)⟩

/-- Claim C3: a scope root with a self-marker entry is enriched to the empty
set whatever its declared set holds, and no node's scoped ancestor chain
ever contains a scope root, so descendants never inherit its markers. -/
theorem claim_C3 (t : TaxonomyTree) (self : SelfMarkers) (scopeRoots : List NodeId)
    (n : NodeId) (s : Finset MarkerId) (hroot : n ∈ scopeRoots)
    (h : List.lookup n self = some s) :
    List.lookup n (extend_expressions t self scopeRoots) = some ∅ ∧
      ∀ m, n ∉ scopedChain t scopeRoots m := by
  have hne : scopeRoots ≠ [] := by
    intro h0
    rw [h0] at hroot
    simp at hroot
  constructor
  · rw [lookup_extend, h]
    simp [enrichNode, hne, hroot]
  · intro m hmem
    simp only [scopedChain] at hmem
    have hdec := List.mem_takeWhile_imp hmem
    simp at hdec
    exact hdec hroot

theorem claim_C3_witness :
    (2 : NodeId) ∈ [2] ∧ List.lookup 2 selfW = some ({13, 14} : Finset MarkerId) ∧
      (List.lookup 2 (extend_expressions treeW selfW [2]) = some ∅ ∧
        ∀ m, (2 : NodeId) ∉ scopedChain treeW [2] m) :=
  ⟨by decide, by decide, claim_C3 treeW selfW [2] 2 {13, 14} (by decide) (by decide)⟩

/-- Claim C4: with a non-empty scope-root list, a node with a self-marker
entry that is neither a scope root nor below one keeps exactly its own set:
no inheritance happens even when true ancestors declare markers. -/
theorem claim_C4 (t : TaxonomyTree) (self : SelfMarkers) (scopeRoots : List NodeId)
    (n : NodeId) (s : Finset MarkerId) (hne : scopeRoots ≠ [])
    (h : List.lookup n self = some s) (hnr : n ∉ scopeRoots)
    (hanc : ∀ a ∈ ancestorsOf t n, a ∉ scopeRoots) :
    List.lookup n (extend_expressions t self scopeRoots) = some s := by
  have hencl : ¬ isEnclosed t scopeRoots n := by
    rintro ⟨a, ha, har⟩
    exact hanc a ha har
  rw [lookup_extend, h]
  simp [enrichNode, hne, hnr, hencl]

theorem claim_C4_witness :
    (([4] : List NodeId) ≠ []) ∧ List.lookup 1 selfW = some ({10, 11, 12} : Finset MarkerId) ∧
      ((1 : NodeId) ∉ ([4] : List NodeId)) ∧
      (∀ a ∈ ancestorsOf treeW 1, a ∉ ([4] : List NodeId)) ∧
      List.lookup 1 (extend_expressions treeW selfW [4]) = some ({10, 11, 12} : Finset MarkerId) :=
  ⟨by decide, by decide, by decide, by decide,
    claim_C4 treeW selfW [4] 1 {10, 11, 12} (by decide) (by decide) (by decide) (by decide)⟩

/-- Claim C5: a strict descendant of an enclosing scope root folds in the
markers of exactly the strict ancestors below the root — the ancestor chain
truncated just before the first occurrence of the root. -/
theorem claim_C5 (t : TaxonomyTree) (self : SelfMarkers) (scopeRoots : List NodeId)
    (n r : NodeId) (s : Finset MarkerId) (l1 l2 : List NodeId)
    (h : List.lookup n self = some s) (hr : r ∈ scopeRoots)
    (hA : ancestorsOf t n = l1 ++ r :: l2) (hl1 : ∀ a ∈ l1, a ∉ scopeRoots)
    (hn : n ∉ scopeRoots) :
    scopedChain t scopeRoots n = l1 ∧
      ∃ E, List.lookup n (extend_expressions t self scopeRoots) = some E ∧
        ∀ m, m ∈ E ↔ m ∈ s ∨ ∃ a ∈ l1, ∃ sa, List.lookup a self = some sa ∧ m ∈ sa := by
  have hne : scopeRoots ≠ [] := by
    intro h0
    rw [h0] at hr
    simp at hr
  have hchain : scopedChain t scopeRoots n = l1 := by
    unfold scopedChain
    rw [hA, takeWhile_append_all l1 (r :: l2) fun x hx => by simp [hl1 x hx]]
    rw [List.takeWhile_cons_of_neg (by simp [hr])]
    simp
  have hencl : isEnclosed t scopeRoots n := ⟨r, by rw [hA]; simp, hr⟩
  refine ⟨hchain, s ∪ collectMarkers (fun b => List.lookup b self) l1, ?_, ?_⟩
  · rw [lookup_extend, h]
    simp [enrichNode, hne, hn, hencl, hchain]
  · intro m
    simp [Finset.mem_union, mem_collectMarkers]

theorem claim_C5_witness :
    List.lookup 1 selfW = some ({10, 11, 12} : Finset MarkerId) ∧
      (3 : NodeId) ∈ ([3] : List NodeId) ∧ ancestorsOf treeW 1 = [2] ++ 3 :: [] ∧
      (∀ a ∈ ([2] : List NodeId), a ∉ ([3] : List NodeId)) ∧
      (1 : NodeId) ∉ ([3] : List NodeId) ∧
      (scopedChain treeW [3] 1 = [2] ∧
        ∃ E, List.lookup 1 (extend_expressions treeW selfW [3]) = some E ∧
          ∀ m, m ∈ E ↔ m ∈ ({10, 11, 12} : Finset MarkerId) ∨
            ∃ a ∈ ([2] : List NodeId), ∃ sa, List.lookup a selfW = some sa ∧ m ∈ sa) :=
  ⟨by decide, by decide, by decide, by decide, by decide,
    claim_C5 treeW selfW [3] 1 3 {10, 11, 12} [2] [] (by decide) (by decide) (by decide)
      (by decide) (by decide)⟩

theorem enrichNode_noscope {t : TaxonomyTree} {sm : NodeId → Option (Finset MarkerId)}
    {n : NodeId} (s : Finset MarkerId) :
    enrichNode t sm [] n s = s ∪ collectMarkers sm (ancestorsOf t n) := by
  simp [enrichNode]

theorem enrichNode_root {t : TaxonomyTree} {sm : NodeId → Option (Finset MarkerId)}
    {scopeRoots : List NodeId} {n : NodeId} (s : Finset MarkerId)
    (hne : scopeRoots ≠ []) (hr : n ∈ scopeRoots) :
    enrichNode t sm scopeRoots n s = ∅ := by
  simp [enrichNode, hne, hr]

theorem enrichNode_scoped {t : TaxonomyTree} {sm : NodeId → Option (Finset MarkerId)}
    {scopeRoots : List NodeId} {n : NodeId} (s : Finset MarkerId)
    (hne : scopeRoots ≠ []) (hnr : n ∉ scopeRoots) (hencl : isEnclosed t scopeRoots n) :
    enrichNode t sm scopeRoots n s = s ∪ collectMarkers sm (scopedChain t scopeRoots n) := by
  simp [enrichNode, hne, hnr, hencl]

theorem enrichNode_unscoped {t : TaxonomyTree} {sm : NodeId → Option (Finset MarkerId)}
    {scopeRoots : List NodeId} {n : NodeId} (s : Finset MarkerId)
    (hne : scopeRoots ≠ []) (hnr : n ∉ scopeRoots) (hencl : ¬ isEnclosed t scopeRoots n) :
    enrichNode t sm scopeRoots n s = s := by
  simp [enrichNode, hne, hnr, hencl]

theorem enrich_idem (t : TaxonomyTree) (self : SelfMarkers) (scopeRoots : List NodeId)
    (hv : TValid t) (n : NodeId) (s : Finset MarkerId) (hn : n ∈ t.nodes) :
    enrichNode t (fun a => List.lookup a (extend_expressions t self scopeRoots)) scopeRoots n
      (enrichNode t (fun a => List.lookup a self) scopeRoots n s) =
    enrichNode t (fun a => List.lookup a self) scopeRoots n s := by
  by_cases h0 : scopeRoots = []
  · subst h0
    simp only [enrichNode_noscope]
    apply Finset.union_eq_left.mpr
    intro m hm
    rw [mem_collectMarkers] at hm
    obtain ⟨a, ha, v, hvv, hmv⟩ := hm
    rw [lookup_extend] at hvv
    cases hLa : List.lookup a self with
    | none =>
      rw [hLa] at hvv
      simp at hvv
    | some sa =>
      rw [hLa] at hvv
      obtain rfl : enrichNode t (fun b => List.lookup b self) [] a sa = v := by
        simpa using hvv
      rw [enrichNode_noscope] at hmv
      rcases Finset.mem_union.mp hmv with hms | hmc
      · exact Finset.mem_union.mpr (Or.inr (subset_collect_of_mem ha hLa hms))
      · obtain ⟨l1, hAeq, -, -⟩ := anc_decomp hv (ancestorsOf t n).length n le_rfl hn a ha
        have hsub : ∀ x ∈ ancestorsOf t a, x ∈ ancestorsOf t n := by
          intro x hx
          rw [hAeq]
          simp [hx]
        exact Finset.mem_union.mpr (Or.inr (collect_mono hsub hmc))
  · by_cases h1 : n ∈ scopeRoots
    · rw [enrichNode_root _ h0 h1, enrichNode_root _ h0 h1]
    · by_cases h2 : isEnclosed t scopeRoots n
      · simp only [enrichNode_scoped _ h0 h1 h2]
        apply Finset.union_eq_left.mpr
        intro m hm
        rw [mem_collectMarkers] at hm
        obtain ⟨a, ha, v, hvv, hmv⟩ := hm
        have ha2 : a ∈ (ancestorsOf t n).takeWhile (fun x => decide (x ∉ scopeRoots)) := by
          simpa [scopedChain] using ha
        have haA : a ∈ ancestorsOf t n := mem_of_mem_tw ha2
        have hanr : a ∉ scopeRoots := by
          have hdec := List.mem_takeWhile_imp ha2
          simpa using hdec
        rw [lookup_extend] at hvv
        cases hLa : List.lookup a self with
        | none =>
          rw [hLa] at hvv
          simp at hvv
        | some sa =>
          rw [hLa] at hvv
          obtain rfl : enrichNode t (fun b => List.lookup b self) scopeRoots a sa = v := by
            simpa using hvv
          by_cases h3 : isEnclosed t scopeRoots a
          · rw [enrichNode_scoped _ h0 hanr h3] at hmv
            rcases Finset.mem_union.mp hmv with hms | hmc
            · exact Finset.mem_union.mpr (Or.inr (subset_collect_of_mem ha hLa hms))
            · obtain ⟨l1, hAeq, hnotin, -⟩ :=
                anc_decomp hv (ancestorsOf t n).length n le_rfl hn a haA
              have hchain : scopedChain t scopeRoots n = l1 ++ a :: scopedChain t scopeRoots a := by
                simp only [scopedChain]
                exact takeWhile_suffix_decomp l1 (ancestorsOf t n) (ancestorsOf t a) a hAeq
                  hnotin ha2
              have hsub : ∀ x ∈ scopedChain t scopeRoots a, x ∈ scopedChain t scopeRoots n := by
                intro x hx
                rw [hchain]
                simp [hx]
              exact Finset.mem_union.mpr (Or.inr (collect_mono hsub hmc))
          · rw [enrichNode_unscoped _ h0 hanr h3] at hmv
            exact Finset.mem_union.mpr (Or.inr (subset_collect_of_mem ha hLa hmv))
      · simp only [enrichNode_unscoped _ h0 h1 h2]

/-- Claim C6: enrichment is idempotent — feeding the enriched table back in
as the self-marker table over the same valid tree and scope list reproduces
it exactly. -/
theorem claim_C6 (t : TaxonomyTree) (self : SelfMarkers) (scopeRoots : List NodeId)
    (hv : TValid t) (hkeys : ∀ e ∈ self, e.1 ∈ t.nodes) :
    extend_expressions t (extend_expressions t self scopeRoots) scopeRoots =
      extend_expressions t self scopeRoots := by
  have hmap : ∀ e ∈ extend_expressions t self scopeRoots,
      (e.1, enrichNode t (fun a => List.lookup a (extend_expressions t self scopeRoots))
        scopeRoots e.1 e.2) = e := by
    intro e he
    obtain ⟨e0, he0, rfl⟩ := List.mem_map.mp he
    have hn : e0.1 ∈ t.nodes := hkeys e0 he0
    have hid := enrich_idem t self scopeRoots hv e0.1 e0.2 hn
    simp [hid]
  exact map_eq_self_of _ _ hmap

theorem claim_C6_witness :
    treeValidB treeW = true ∧ (∀ e ∈ selfW, e.1 ∈ treeW.nodes) ∧
      extend_expressions treeW (extend_expressions treeW selfW [3]) [3] =
        extend_expressions treeW selfW [3] :=
  ⟨by decide, by decide, claim_C6 treeW selfW [3] (by unfold TValid; decide) (by decide)⟩

theorem edges_addNode (g : DiGraph) (u : ℕ) : (addNode g u).edges = g.edges := by
  unfold addNode
  split <;> rfl

theorem mem_nodes_addNode (g : DiGraph) (u x : ℕ) :
    x ∈ (addNode g u).nodes ↔ x ∈ g.nodes ∨ x = u := by
  by_cases h : g.nodes.contains u = true
  · have hu : u ∈ g.nodes := by simpa using h
    simp only [addNode, if_pos h]
    constructor
    · exact Or.inl
    · rintro (hx | rfl)
      · exact hx
      · exact hu
  · simp only [addNode, if_neg h]
    simp

theorem mem_edges_add_edge (g : DiGraph) (u v : ℕ) (p : ℕ × ℕ) :
    p ∈ (add_edge g u v).edges ↔ p ∈ g.edges ∨ p = (u, v) := by
  have hE : (addNode (addNode g u) v).edges = g.edges := by
    rw [edges_addNode, edges_addNode]
  simp only [add_edge]
  split
  · rename_i h
    rw [hE] at h ⊢
    have huv : (u, v) ∈ g.edges := by simpa using h
    constructor
    · exact Or.inl
    · rintro (hp | rfl)
      · exact hp
      · exact huv
  · rw [hE]
    simp

theorem mem_nodes_add_edge (g : DiGraph) (u v x : ℕ) :
    x ∈ (add_edge g u v).nodes ↔ x ∈ g.nodes ∨ x = u ∨ x = v := by
  have hN : (add_edge g u v).nodes = (addNode (addNode g u) v).nodes := by
    simp only [add_edge]
    split <;> rfl
  rw [hN, mem_nodes_addNode, mem_nodes_addNode, or_assoc]

theorem gdt_edges_mem :
    ∀ (E : List (ℕ × ℕ)) (g : DiGraph) (p : ℕ × ℕ),
      p ∈ (E.foldl (fun tree e => add_edge tree e.2 e.1) g).edges ↔
        p ∈ g.edges ∨ ∃ e ∈ E, p = (e.2, e.1) := by
  intro E
  induction E with
  | nil => simp
  | cons e rest ih =>
    intro g p
    rw [List.foldl_cons, ih, mem_edges_add_edge]
    constructor
    · rintro ((hp | rfl) | ⟨e2, he2, rfl⟩)
      · exact Or.inl hp
      · exact Or.inr ⟨e, by simp, rfl⟩
      · exact Or.inr ⟨e2, by simp [he2], rfl⟩
    · rintro (hp | ⟨e2, he2, rfl⟩)
      · exact Or.inl (Or.inl hp)
      · rcases List.mem_cons.mp he2 with rfl | h2
        · exact Or.inl (Or.inr rfl)
        · exact Or.inr ⟨e2, h2, rfl⟩

theorem gdt_nodes_mem :
    ∀ (E : List (ℕ × ℕ)) (g : DiGraph) (x : ℕ),
      x ∈ (E.foldl (fun tree e => add_edge tree e.2 e.1) g).nodes ↔
        x ∈ g.nodes ∨ ∃ e ∈ E, x = e.1 ∨ x = e.2 := by
  intro E
  induction E with
  | nil => simp
  | cons e rest ih =>
    intro g x
    rw [List.foldl_cons, ih, mem_nodes_add_edge]
    constructor
    · rintro ((hp | rfl | rfl) | ⟨e2, he2, h2⟩)
      · exact Or.inl hp
      · exact Or.inr ⟨e, by simp, Or.inr rfl⟩
      · exact Or.inr ⟨e, by simp, Or.inl rfl⟩
      · exact Or.inr ⟨e2, by simp [he2], h2⟩
    · rintro (hp | ⟨e2, he2, h2⟩)
      · exact Or.inl (Or.inl hp)
      · rcases List.mem_cons.mp he2 with rfl | hm
        · rcases h2 with rfl | rfl
          · exact Or.inl (Or.inr (Or.inr rfl))
          · exact Or.inl (Or.inr (Or.inl rfl))
        · exact Or.inr ⟨e2, hm, h2⟩

/-- Claim C7 counterexample: the two-edge cycle `1 ↔ 2` is not a valid
rooted tree, yet construction does not fail: it returns the full two-node
graph with both reversed edges. -/
theorem claim_C7_counterexample :
    specValidRootedTree [(1, 2), (2, 1)] = false ∧
      (generate_dendrogram_tree [(1, 2), (2, 1)]).nodes = [2, 1] ∧
      (generate_dendrogram_tree [(1, 2), (2, 1)]).edges = [(2, 1), (1, 2)] :=
  ⟨by decide, by decide, by decide⟩

/-- Claim C7 (amended): tree construction never fails and performs no
structural validation: for every edge list — cyclic, multi-parent or
multi-root included — `generate_dendrogram_tree` returns the directed graph
whose edges are exactly the reversed input pairs and whose nodes are exactly
the endpoints appearing in the input. -/
theorem claim_C7 (E : List (ℕ × ℕ)) (p : ℕ × ℕ) (x : ℕ) :
    (p ∈ (generate_dendrogram_tree E).edges ↔ ∃ e ∈ E, p = (e.2, e.1)) ∧
    (x ∈ (generate_dendrogram_tree E).nodes ↔ ∃ e ∈ E, x = e.1 ∨ x = e.2) := by
  unfold generate_dendrogram_tree
  constructor
  · rw [gdt_edges_mem]
    simp
  · rw [gdt_nodes_mem]
    simp

/-- Claim C8: `get_subtrees` fails (with the error raised inside
`nx.descendants`, carrying no partial result, so nothing downstream —
marker reading or enrichment — ever runs) exactly when some configured
scope-root id is not a node of the taxonomy tree; when every root id is
present no other runtime failure occurs and a subtree list is returned. -/
theorem claim_C8 (g : DiGraph) (rootIds : List ℕ) :
    ((∃ e, get_subtrees g rootIds = Except.error e) ↔ ∃ r ∈ rootIds, r ∉ g.nodes) ∧
      ((∀ r ∈ rootIds, r ∈ g.nodes) → ∃ l, get_subtrees g rootIds = Except.ok l) := by
  have main : ∀ rs : List ℕ,
      (∃ e, get_subtrees g rs = Except.error e) ↔ ∃ r ∈ rs, r ∉ g.nodes := by
    intro rs
    induction rs with
    | nil => simp [get_subtrees]
    | cons r rest ih =>
      constructor
      · rintro ⟨e, he⟩
        simp only [get_subtrees] at he
        cases hd : nx_descendants g r with
        | error e2 =>
          have hnc : r ∉ g.nodes := by
            intro hmem
            simp [nx_descendants, hmem] at hd
          exact ⟨r, by simp, hnc⟩
        | ok ds =>
          rw [hd] at he
          cases hrest : get_subtrees g rest with
          | error e3 =>
            obtain ⟨r2, h1, h2⟩ := ih.mp ⟨e3, hrest⟩
            exact ⟨r2, by simp [h1], h2⟩
          | ok others =>
            rw [hrest] at he
            simp at he
      · rintro ⟨r2, hmem, hnot⟩
        rcases List.mem_cons.mp hmem with rfl | h2
        · refine ⟨"node not in digraph", ?_⟩
          simp only [get_subtrees]
          simp [nx_descendants, hnot]
        · obtain ⟨e3, he3⟩ := ih.mpr ⟨r2, h2, hnot⟩
          cases hd : nx_descendants g r with
          | error e2 =>
            refine ⟨e2, ?_⟩
            simp only [get_subtrees]
            rw [hd]
          | ok ds =>
            refine ⟨e3, ?_⟩
            simp only [get_subtrees]
            rw [hd, he3]
  refine ⟨main rootIds, ?_⟩
  intro hall
  cases hres : get_subtrees g rootIds with
  | ok l => exact ⟨l, rfl⟩
  | error e =>
    obtain ⟨r, hr, hnot⟩ := (main rootIds).mp ⟨e, hres⟩
    exact absurd (hall r hr) hnot

theorem claim_C8_witness :
    (∃ e, get_subtrees graphW [2, 99] = Except.error e) ∧
      ∃ l, get_subtrees graphW [2, 3] = Except.ok l :=
  ⟨(claim_C8 graphW [2, 99]).1.mpr ⟨99, by decide, by decide⟩,
    (claim_C8 graphW [2, 3]).2 (by decide)⟩

/-- Claim C10: for a configured root node present in the tree,
`get_subtrees` produces a subtree that never contains the root when the root
has descendants (the descendant set always excludes the source), and that is
exactly the singleton of the root when it has no descendants. -/
theorem claim_C10 (g : DiGraph) (r : ℕ) (h : r ∈ g.nodes) :
    ∃ ds, nx_descendants g r = Except.ok ds ∧ r ∉ ds ∧
      get_subtrees g [r] = Except.ok [if ds.isEmpty then [r] else ds] ∧
      (ds.isEmpty = true → (if ds.isEmpty then [r] else ds) = [r]) := by
  have hd : nx_descendants g r =
      Except.ok ((reachClosure g g.nodes.length [r]).filter fun m => m != r) := by
    simp [nx_descendants, h]
  refine ⟨(reachClosure g g.nodes.length [r]).filter fun m => m != r, hd, ?_, ?_, ?_⟩
  · intro hmem
    have hf := List.of_mem_filter hmem
    simp at hf
  · simp only [get_subtrees, hd]
  · intro hempty
    simp [hempty]

theorem claim_C10_witness :
    ((2 : ℕ) ∈ graphW.nodes ∧
      ∃ ds, nx_descendants graphW 2 = Except.ok ds ∧ (2 : ℕ) ∉ ds ∧
        get_subtrees graphW [2] = Except.ok [if ds.isEmpty then [2] else ds] ∧
        (ds.isEmpty = true → (if ds.isEmpty then [2] else ds) = [2])) ∧
    ((3 : ℕ) ∈ graphW.nodes ∧
      ∃ ds, nx_descendants graphW 3 = Except.ok ds ∧ (3 : ℕ) ∉ ds ∧
        get_subtrees graphW [3] = Except.ok [if ds.isEmpty then [3] else ds] ∧
        (ds.isEmpty = true → (if ds.isEmpty then [3] else ds) = [3])) :=
  ⟨⟨by decide, claim_C10 graphW 2 (by decide)⟩,
    ⟨by decide, claim_C10 graphW 3 (by decide)⟩⟩

theorem lookup_isSome_iff_mem_keys {β : Type} (m : List (ℕ × β)) (x : ℕ) :
    (List.lookup x m).isSome = true ↔ x ∈ m.map Prod.fst := by
  induction m with
  | nil => simp [List.lookup]
  | cons e t ih =>
    obtain ⟨k, u⟩ := e
    by_cases h : x = k
    · subst h
      simp [List.lookup]
    · have hb : (x == k) = false := by simpa using h
      simp [List.lookup, hb, ih, h]

theorem keys_dictInsert (m : List (ℕ × List Char)) (k : ℕ) (v : List Char) (x : ℕ) :
    x ∈ (dictInsert m k v).map Prod.fst ↔ x ∈ m.map Prod.fst ∨ x = k := by
  unfold dictInsert
  by_cases h : (m.any fun e => e.1 == k) = true
  · rw [if_pos h, List.map_map]
    constructor
    · intro hx
      obtain ⟨e, he, hfe⟩ := List.mem_map.mp hx
      simp only [Function.comp] at hfe
      by_cases hek : (e.1 == k) = true
      · rw [if_pos hek] at hfe
        exact Or.inr hfe.symm
      · rw [if_neg hek] at hfe
        exact Or.inl (List.mem_map.mpr ⟨e, he, hfe⟩)
    · rintro (hx | rfl)
      · obtain ⟨e, he, hfe⟩ := List.mem_map.mp hx
        apply List.mem_map.mpr
        refine ⟨e, he, ?_⟩
        simp only [Function.comp]
        by_cases hek : (e.1 == k) = true
        · rw [if_pos hek]
          have h1 : e.1 = k := by simpa using hek
          rw [← h1]
          exact hfe
        · rw [if_neg hek]
          exact hfe
      · rw [List.any_eq_true] at h
        obtain ⟨e, he, hbe⟩ := h
        apply List.mem_map.mpr
        refine ⟨e, he, ?_⟩
        simp only [Function.comp]
        rw [if_pos hbe]
  · rw [if_neg h]
    simp

theorem lookup_read_fold (g : List (List Char)) :
    ∀ (rows : List (ℕ × List Char)) (acc : List (ℕ × List Char) × List (List Char)) (x : ℕ),
      (List.lookup x (rows.foldl (readMarkersStep g) acc).1).isSome = true ↔
        (List.lookup x acc.1).isSome = true ∨ ∃ e ∈ rows, e.1 = x ∧ e.2 ≠ [] := by
  intro rows
  induction rows with
  | nil =>
    intro acc x
    simp
  | cons row rest ih =>
    intro acc x
    rw [List.foldl_cons, ih]
    by_cases hrow : row.2 = []
    · have hstep : readMarkersStep g acc row = acc := by
        simp [readMarkersStep, hrow]
      rw [hstep]
      constructor
      · rintro (h1 | ⟨e, he, h3, h4⟩)
        · exact Or.inl h1
        · exact Or.inr ⟨e, by simp [he], h3, h4⟩
      · rintro (h1 | ⟨e, he, h3, h4⟩)
        · exact Or.inl h1
        · rcases List.mem_cons.mp he with rfl | hm
          · exact absurd hrow h4
          · exact Or.inr ⟨e, hm, h3, h4⟩
    · have hstep : (readMarkersStep g acc row).1 =
          dictInsert acc.1 row.1 (List.intercalate ['|']
            (sortNames (((splitPipe row.2).map trimChars).filter fun mn => g.contains mn))) := by
        simp [readMarkersStep, hrow]
      rw [hstep, lookup_isSome_iff_mem_keys, keys_dictInsert, ← lookup_isSome_iff_mem_keys]
      constructor
      · rintro ((h1 | rfl) | ⟨e, he, h3, h4⟩)
        · exact Or.inl h1
        · exact Or.inr ⟨row, by simp, rfl, hrow⟩
        · exact Or.inr ⟨e, by simp [he], h3, h4⟩
      · rintro (h1 | ⟨e, he, h3, h4⟩)
        · exact Or.inl (Or.inl h1)
        · rcases List.mem_cons.mp he with rfl | hm
          · exact Or.inl (Or.inr h3.symm)
          · exact Or.inr ⟨e, hm, h3, h4⟩

/-- Claim C9 counterexample: a row whose marker field is the empty string is
not kept with an empty marker set — its key is absent from the result — and
a marker missing from the gene-name database does produce a printed line. -/
theorem claim_C9_counterexample :
    (read_markers [(1, [])] [['g']]).1 = [] ∧
      (read_markers [(2, ['x'])] [['g']]).2 = [['x']] :=
  ⟨by decide, by decide⟩

/-- Claim C9 (amended): marker strings are split on the pipe with every
piece whitespace-trimmed; pieces missing from the gene-name database are
dropped from the value and each produces one printed warning line; a row
with a non-empty marker field always yields its key — with the sorted
surviving markers joined by pipes, empty when all pieces miss — while a row
with an empty marker field is skipped silently, leaving its key absent. -/
theorem claim_C9 (rows : List (ℕ × List Char)) (g : List (List Char)) (x id : ℕ)
    (field : List Char) (hf : field ≠ []) :
    ((List.lookup x (read_markers rows g).1).isSome = true ↔
        ∃ e ∈ rows, e.1 = x ∧ e.2 ≠ []) ∧
      read_markers [(id, field)] g =
        ([(id, List.intercalate ['|']
            (sortNames (((splitPipe field).map trimChars).filter fun mn => g.contains mn)))],
          ((splitPipe field).map trimChars).filter fun mn => !g.contains mn) ∧
      read_markers [(id, [])] g = ([], []) := by
  refine ⟨?_, ?_, ?_⟩
  · rw [read_markers, lookup_read_fold]
    simp [List.lookup]
  · simp [read_markers, readMarkersStep, dictInsert, hf]
  · simp [read_markers, readMarkersStep]

theorem claim_C9_witness :
    (['b'] : List Char) ≠ [] ∧
      (((List.lookup 1 (read_markers [(1, ['a'])] [['a']]).1).isSome = true ↔
          ∃ e ∈ [((1 : ℕ), ['a'])], e.1 = 1 ∧ e.2 ≠ []) ∧
        read_markers [(2, ['b'])] [['a']] =
          ([(2, List.intercalate ['|']
              (sortNames (((splitPipe ['b']).map trimChars).filter
                fun mn => List.contains [['a']] mn)))],
            ((splitPipe ['b']).map trimChars).filter fun mn => !List.contains [['a']] mn) ∧
        read_markers [(2, ([] : List Char))] [['a']] = ([], [])) :=
  ⟨by decide, claim_C9 [(1, ['a'])] [['a']] 1 2 ['b'] (by decide)⟩
